import Mathlib

/-!
Shallow embedding of the `web-storage` library (the `WebStorage` facade over
the browser `Storage` API) and proofs about its behaviour.

Strings of the host language are modelled as lists of characters, so that
concatenation, `startsWith`, `slice` and `trim` become the corresponding list
operations.  JSON texts stored in the backing store are modelled by their
parse trees (`Json`); a text a driver may hold that is not valid JSON is
modelled by the `StoredVal.malformed` constructor.
-/

namespace WebStorageModel

/-- Host-language strings, modelled as sequences of characters. -/
abbrev Str := List Char

/-- Host-language numbers.  The IEEE-754 special cases that the JSON encoder
treats specially (`NaN`, the infinities, negative zero) are separated from
ordinary finite numbers, which are modelled as rationals. -/
inductive JSNum where
  | finite (q : ℚ)
  | negZero
  | nan
  | inf
  | negInf
deriving DecidableEq

mutual
/-- Host-language runtime values, as far as the facade inspects them:
`undefined`, `null`, booleans, numbers, strings, function values and
(nested) arrays and plain objects. -/
inductive JSValue where
  | undef
  | null
  | bool (b : Bool)
  | num (n : JSNum)
  | str (s : Str)
  | fn
  | arr (elems : JSList)
  | obj (fields : JSFields)
/-- Lists of host values (array elements). -/
inductive JSList where
  | nil
  | cons (hd : JSValue) (tl : JSList)
/-- Ordered own-property lists of host objects. -/
inductive JSFields where
  | nil
  | cons (key : Str) (val : JSValue) (tl : JSFields)
end

deriving instance DecidableEq for JSValue

mutual
/-- Parse trees of JSON texts: what a well-formed stored string denotes. -/
inductive Json where
  | null
  | bool (b : Bool)
  | num (q : ℚ)
  | str (s : Str)
  | arr (elems : JsonList)
  | obj (fields : JsonFields)
/-- Lists of JSON values. -/
inductive JsonList where
  | nil
  | cons (hd : Json) (tl : JsonList)
/-- Ordered member lists of JSON objects. -/
inductive JsonFields where
  | nil
  | cons (key : Str) (val : Json) (tl : JsonFields)
end

deriving instance DecidableEq for Json

mutual
/-- JSON.stringify, as the JSON tree the produced text denotes.  Non-finite
numbers become the null literal, negative zero becomes `0`; inside arrays,
`undefined` and function values become the null literal.  (At the top level
the facade has already normalized `undefined`/functions away, so mapping them
to null here is unobservable.) -/
def stringifyVal : JSValue → Json
  | .undef => .null
  | .null => .null
  | .bool b => .bool b
  | .num (.finite q) => .num q
  | .num .negZero => .num 0
  | .num .nan => .null
  | .num .inf => .null
  | .num .negInf => .null
  | .str s => .str s
  | .fn => .null
  | .arr xs => .arr (stringifyList xs)
  | .obj fs => .obj (stringifyFields fs)
/-- JSON.stringify on array elements. -/
def stringifyList : JSList → JsonList
  | .nil => .nil
  | .cons v tl => .cons (stringifyVal v) (stringifyList tl)
/-- JSON.stringify on object members: members whose value is `undefined` or a
function are dropped from the output. -/
def stringifyFields : JSFields → JsonFields
  | .nil => .nil
  | .cons k v tl =>
    match v with
    | .undef => stringifyFields tl
    | .fn => stringifyFields tl
    | v' => .cons k (stringifyVal v') (stringifyFields tl)
end

mutual
/-- JSON.parse on a well-formed JSON text, as the host value it builds. -/
def decodeJson : Json → JSValue
  | .null => .null
  | .bool b => .bool b
  | .num q => .num (.finite q)
  | .str s => .str s
  | .arr xs => .arr (decodeList xs)
  | .obj fs => .obj (decodeFields fs)
/-- JSON.parse on array elements. -/
def decodeList : JsonList → JSList
  | .nil => .nil
  | .cons j tl => .cons (decodeJson j) (decodeList tl)
/-- JSON.parse on object members. -/
def decodeFields : JsonFields → JSFields
  | .nil => .nil
  | .cons k j tl => .cons k (decodeJson j) (decodeFields tl)
end

mutual
/-- Purely JSON-encodable host values: built only from `null`, booleans,
finite (non negative-zero) numbers, strings, arrays and objects of the same.
These are exactly the values the encode/decode round trip preserves. -/
def isPure : JSValue → Bool
  | .undef => false
  | .null => true
  | .bool _ => true
  | .num (.finite _) => true
  | .num _ => false
  | .str _ => true
  | .fn => false
  | .arr xs => isPureList xs
  | .obj fs => isPureFields fs
/-- Purity of every array element. -/
def isPureList : JSList → Bool
  | .nil => true
  | .cons v tl => isPure v && isPureList tl
/-- Purity of every object member value. -/
def isPureFields : JSFields → Bool
  | .nil => true
  | .cons _ v tl => isPure v && isPureFields tl
end

/-- Error objects the facade can surface: the two configuration-error kinds it
raises itself and the syntax errors of the JSON decoder. -/
inductive JSError where
  | typeError (msg : Str)
  | error (msg : Str)
  | syntaxError (msg : Str)
deriving DecidableEq

/-- Thrown exception values: either a proper error object or an arbitrary
non-error value, carried as its string conversion. -/
inductive Exc where
  | err (e : JSError)
  | nonErr (s : Str)
deriving DecidableEq

/-- Translation applied in every catch block of the facade:
`error instanceof Error ? error : new Error(String(error))`. -/
def wrapError : Exc → JSError
  | .err e => e
  | .nonErr s => .error s

/-- Text held by a driver under a key: either a well-formed JSON text
(modelled by its parse tree) or a text the JSON decoder rejects. -/
inductive StoredVal where
  | json (j : Json)
  | malformed (s : Str)
deriving DecidableEq

instance : Inhabited JSValue := ⟨JSValue.null⟩

instance : Inhabited Json := ⟨Json.null⟩

instance : Inhabited StoredVal := ⟨StoredVal.json Json.null⟩

/-- JSON.parse of a well-formed text succeeds with its decoded value;
a malformed text makes the decoder throw. -/
def parseStored : StoredVal → Except Exc JSValue
  | .json j => .ok (decodeJson j)
  | .malformed s => .error (.err (.syntaxError s))

/-- JSON.parse applied to the result of a driver read, as done by `iterate`:
an absent entry reads as the host null value, which the decoder coerces to
the text of the null literal and parses successfully. -/
def parseRaw : Option StoredVal → Except Exc JSValue
  | none => .ok .null
  | some sv => parseStored sv

/-- Backing-store interface consumed by the facade (the `Storage` API plus
reflective key enumeration).  Every primitive may throw and transforms the
store state. -/
structure Storage (σ : Type) where
  getItem : Str → σ → Except Exc (Option StoredVal) × σ
  setItem : Str → StoredVal → σ → Except Exc Unit × σ
  removeItem : Str → σ → Except Exc Unit × σ
  objectKeys : σ → List Str × σ

/-- State of a live driver: its entries, in enumeration order. -/
abbrev DriverState := List (Str × StoredVal)

/-- Driver read: the first entry with the given key, if any. -/
def lookupEntry : DriverState → Str → Option StoredVal
  | [], _ => none
  | e :: rest, key => if e.1 = key then some e.2 else lookupEntry rest key

/-- Driver write: overwrite the existing entry in place, else append. -/
def setEntry : DriverState → Str → StoredVal → DriverState
  | [], key, v => [(key, v)]
  | e :: rest, key, v => if e.1 = key then (key, v) :: rest else e :: setEntry rest key v

/-- Driver delete: drop every entry with the given key. -/
def removeEntry : DriverState → Str → DriverState
  | [], _ => []
  | e :: rest, key => if e.1 = key then removeEntry rest key else e :: removeEntry rest key

/-- The live backing store: reads, writes, deletes and enumerates its
entries and never throws. -/
def liveStorage : Storage DriverState where
  getItem key st := (.ok (lookupEntry st key), st)
  setItem key v st := (.ok (), setEntry st key v)
  removeItem key v := (.ok (), removeEntry v key)
  objectKeys st := (st.map Prod.fst, st)

/-- Own enumerable property names of the object built by `createNoopStorage`
(its five methods and its `length` field), as seen by `Object.keys`. -/
def noopKeys : List Str :=
  ["getItem".toList, "setItem".toList, "removeItem".toList,
   "key".toList, "clear".toList, "length".toList]

/-- The no-operation fallback store built by `createNoopStorage`: reads
report absence, writes and deletes do nothing, and reflective enumeration
sees only the object's own method names. -/
def noopStorage : Storage DriverState where
  getItem _ st := (.ok none, st)
  setItem _ _ st := (.ok (), st)
  removeItem _ st := (.ok (), st)
  objectKeys st := (noopKeys, st)

/-- Source function `removePrefix`: strip `pfx` from the front of `s` when
`s` starts with it, else return `s` unchanged. -/
def removePrefix (s pfx : Str) : Str :=
  if pfx <+: s then s.drop pfx.length else s

/-- Normalization done by `setItem` before encoding:
`value == null || typeof value === 'function' ? null : value` (loose
equality with null matches both `null` and `undefined`). -/
def safeValue : JSValue → JSValue
  | .null => .null
  | .undef => .null
  | .fn => .null
  | v => v

/-- Method `getItem` body, generic over the bound store: read the raw text at
the prefixed key; absence yields `(null, null)`; a present text is decoded;
any throw from the read or the decode is caught and returned in the error
slot of the tuple. -/
def getItemOp (S : Storage σ) (pfx key : Str) (st : σ) :
    (JSValue × Option JSError) × σ :=
  match S.getItem (pfx ++ key) st with
  | (.error e, st') => ((.null, some (wrapError e)), st')
  | (.ok none, st') => ((.null, none), st')
  | (.ok (some sv), st') =>
    match parseStored sv with
    | .ok v => ((v, none), st')
    | .error e => ((.null, some (wrapError e)), st')

/-- Method `setItem` body: normalize the value, encode it, write the encoded
text at the prefixed key; a throw from the write is caught and returned in
the error slot. -/
def setItemOp (S : Storage σ) (pfx key : Str) (value : JSValue) (st : σ) :
    (Bool × Option JSError) × σ :=
  match S.setItem (pfx ++ key) (.json (stringifyVal (safeValue value))) st with
  | (.ok _, st') => ((true, none), st')
  | (.error e, st') => ((false, some (wrapError e)), st')

/-- Method `removeItem` body: delete the prefixed key; a throw from the
delete is caught and returned in the error slot. -/
def removeItemOp (S : Storage σ) (pfx key : Str) (st : σ) :
    (Bool × Option JSError) × σ :=
  match S.removeItem (pfx ++ key) st with
  | (.ok _, st') => ((true, none), st')
  | (.error e, st') => ((false, some (wrapError e)), st')

/-- Loop of the private `#iterateStorage` helper over the snapshot of the
driver's key list: for each key that starts with the prefix, read its value
and hand both to the callback; the first throw (from the read or from the
callback) aborts the remaining iterations.  The callback may transform the
store state and a local accumulator and reports a throw in its first
component. -/
def iterGo (S : Storage σ) (pfx : Str)
    (cb : Str → Option StoredVal → σ → α → Except Exc Unit × σ × α) :
    List Str → σ → α → σ × α × Option Exc
  | [], st, acc => (st, acc, none)
  | key :: rest, st, acc =>
    if pfx <+: key then
      match S.getItem key st with
      | (.error e, st') => (st', acc, some e)
      | (.ok raw, st') =>
        match cb key raw st' acc with
        | (.error e, st2, acc2) => (st2, acc2, some e)
        | (.ok _, st2, acc2) => iterGo S pfx cb rest st2 acc2
    else iterGo S pfx cb rest st acc

/-- Private method `#iterateStorage`: snapshot the driver's own keys, then
run the loop. -/
def iterateStorageOp (S : Storage σ) (pfx : Str)
    (cb : Str → Option StoredVal → σ → α → Except Exc Unit × σ × α)
    (st : σ) (acc : α) : σ × α × Option Exc :=
  match S.objectKeys st with
  | (ks, st1) => iterGo S pfx cb ks st1 acc

/-- Callback handed by `clear` to `#iterateStorage`:
`key => this.#driver.removeItem(key)`. -/
def clearCb (S : Storage σ) :
    Str → Option StoredVal → σ → Unit → Except Exc Unit × σ × Unit :=
  fun key _raw s a =>
    match S.removeItem key s with
    | (.ok _, s') => (.ok (), s', a)
    | (.error e, s') => (.error e, s', a)

/-- Method `clear` body: delete every enumerated key of the namespace; the
first throw aborts the loop and is returned in the error slot, with the
deletions already performed kept. -/
def clearOp (S : Storage σ) (pfx : Str) (st : σ) :
    (Bool × Option JSError) × σ :=
  match iterateStorageOp S pfx (clearCb S) st () with
  | (st', _, none) => ((true, none), st')
  | (st', _, some e) => ((false, some (wrapError e)), st')

/-- Callback handed by `keys` to `#iterateStorage`: strip the prefix and
push the bare key onto the result list. -/
def keysCb (pfx : Str) :
    Str → Option StoredVal → σ → List Str → Except Exc Unit × σ × List Str :=
  fun key _raw s a => (.ok (), s, a ++ [removePrefix key pfx])

/-- Method `keys` body: collect the unprefixed form of every enumerated key
of the namespace; on a throw the partial list is discarded and the empty
list is returned with the error. -/
def keysOp (S : Storage σ) (pfx : Str) (st : σ) :
    (List Str × Option JSError) × σ :=
  match iterateStorageOp S pfx (keysCb pfx) st ([] : List Str) with
  | (st', acc, none) => ((acc, none), st')
  | (st', _, some e) => (([], some (wrapError e)), st')

/-- Method `length` body: delegate to `keys`; a failure there yields
`(0, failure)` with the same error object, success yields the list length. -/
def lengthOp (S : Storage σ) (pfx : Str) (st : σ) :
    (Nat × Option JSError) × σ :=
  match keysOp S pfx st with
  | ((ks, none), st') => ((ks.length, none), st')
  | ((_, some e), st') => ((0, some e), st')

/-- Callback handed by `iterate` to `#iterateStorage`: decode the raw value
and invoke the user callback on the decoded value and the unprefixed key.
The user callback threads its own captured state `α` and may throw; a throw
from the decode or from the callback is reported upward. -/
def iterCb (pfx : Str) (cb : JSValue → Str → α → Except Exc α) :
    Str → Option StoredVal → σ → α → Except Exc Unit × σ × α :=
  fun key raw s a =>
    match parseRaw raw with
    | .error e => (.error e, s, a)
    | .ok v =>
      match cb v (removePrefix key pfx) a with
      | .error e => (.error e, s, a)
      | .ok a' => (.ok (), s, a')

/-- Method `iterate` body.  A non-callable argument (modelled by `none`)
raises a TypeError before any storage access; a callable argument is run by
the loop through `iterCb`.  A throw from a read, a decode or the callback
itself aborts the loop and is returned in the error slot. -/
def iterateOp (S : Storage σ) (pfx : Str)
    (cbArg : Option (JSValue → Str → α → Except Exc α)) (st : σ) (acc : α) :
    Except JSError ((Bool × Option JSError) × σ × α) :=
  match cbArg with
  | none => .error (.typeError ("iteratorCallback must be a function".toList))
  | some cb =>
    match iterateStorageOp S pfx (iterCb pfx cb) st acc with
    | (st', acc', none) => .ok ((true, none), st', acc')
    | (st', acc', some e) => .ok ((false, some (wrapError e)), st', acc')

/-- Source constant `DEFAULT_DRIVER`. -/
def DEFAULT_DRIVER : Str := "localStorage".toList

/-- Source constant `DEFAULT_KEY_PREFIX`. -/
def DEFAULT_KEY_PREFIX : Str := "web-storage/".toList

/-- Trim of leading and trailing whitespace, as `String.prototype.trim`. -/
def trimStr (s : Str) : Str :=
  ((s.dropWhile Char.isWhitespace).reverse.dropWhile Char.isWhitespace).reverse

/-- Constructor options.  A field holds `none` when the option key is absent
(so the default applies) and `some v` when the caller supplied the runtime
value `v`, of any type. -/
structure WebStorageOptions where
  driver : Option JSValue
  keyPrefix : Option JSValue

/-- State of a constructed facade: which store it bound (the live one or the
no-op fallback) and its trimmed key prefix. -/
structure WebStorage where
  useNoop : Bool
  keyPrefix : Str
deriving DecidableEq

deriving instance DecidableEq for Except

/-- Source constructor.  The defaults are merged under the caller's options;
a driver identifier other than the two accepted strings raises an Error and
a non-string key prefix raises a TypeError, both before any storage access.
Otherwise the availability probe outcome `avail` decides whether the live
store or the no-op fallback is bound, and the trimmed prefix is stored. -/
def construct (options : WebStorageOptions) (avail : Bool) :
    Except JSError WebStorage :=
  if options.driver.getD (.str DEFAULT_DRIVER) ≠ .str ("localStorage".toList)
      ∧ options.driver.getD (.str DEFAULT_DRIVER) ≠ .str ("sessionStorage".toList) then
    .error (.error ("the driver option must be one of localStorage or sessionStorage".toList))
  else
    match options.keyPrefix.getD (.str DEFAULT_KEY_PREFIX) with
    | .str s => .ok ⟨!avail, trimStr s⟩
    | _ => .error (.typeError ("the keyPrefix option must be a string".toList))

/-- Store bound by a facade instance. -/
def storageOf (ws : WebStorage) : Storage DriverState :=
  if ws.useNoop then noopStorage else liveStorage

/-- Method `getItem` of an instance. -/
def WebStorage.getItem (ws : WebStorage) (key : Str) (st : DriverState) :
    (JSValue × Option JSError) × DriverState :=
  getItemOp (storageOf ws) ws.keyPrefix key st

/-- Method `setItem` of an instance. -/
def WebStorage.setItem (ws : WebStorage) (key : Str) (value : JSValue)
    (st : DriverState) : (Bool × Option JSError) × DriverState :=
  setItemOp (storageOf ws) ws.keyPrefix key value st

/-- Method `removeItem` of an instance. -/
def WebStorage.removeItem (ws : WebStorage) (key : Str) (st : DriverState) :
    (Bool × Option JSError) × DriverState :=
  removeItemOp (storageOf ws) ws.keyPrefix key st

/-- Method `clear` of an instance. -/
def WebStorage.clear (ws : WebStorage) (st : DriverState) :
    (Bool × Option JSError) × DriverState :=
  clearOp (storageOf ws) ws.keyPrefix st

/-- Method `keys` of an instance. -/
def WebStorage.keys (ws : WebStorage) (st : DriverState) :
    (List Str × Option JSError) × DriverState :=
  keysOp (storageOf ws) ws.keyPrefix st

/-- Method `length` of an instance. -/
def WebStorage.length (ws : WebStorage) (st : DriverState) :
    (Nat × Option JSError) × DriverState :=
  lengthOp (storageOf ws) ws.keyPrefix st

/-- Method `iterate` of an instance. -/
def WebStorage.iterate (ws : WebStorage)
    (cbArg : Option (JSValue → Str → α → Except Exc α)) (st : DriverState)
    (acc : α) : Except JSError ((Bool × Option JSError) × DriverState × α) :=
  iterateOp (storageOf ws) ws.keyPrefix cbArg st acc

/-- Tests whether a stored text is well-formed JSON. -/
def isJsonVal : StoredVal → Bool
  | .json _ => true
  | .malformed _ => false

/-- Test callback that counts its successful invocations and throws `e` on
its `m`-th invocation. -/
def cbCount (e : Exc) (m : Nat) : JSValue → Str → Nat → Except Exc Nat :=
  fun _ _ n => if n + 1 = m then .error e else .ok (n + 1)

/-- Test double of a backing store whose primitives throw (a store with
storage disabled), enumerating one prefixed key. -/
def failStorage : Storage Unit where
  getItem _ s := (.error (.err (.error ("quota".toList))), s)
  setItem _ _ s := (.error (.err (.error ("quota".toList))), s)
  removeItem _ s := (.error (.err (.error ("quota".toList))), s)
  objectKeys s := (["p/x".toList], s)

/-! Helper lemmas. -/

mutual
/-- Round trip: decoding the encoding of a purely JSON-encodable value gives
the value back. -/
theorem decode_stringify : ∀ v : JSValue, isPure v = true →
    decodeJson (stringifyVal v) = v
  | .null, _ => rfl
  | .bool _, _ => rfl
  | .num (.finite _), _ => rfl
  | .str _, _ => rfl
  | .arr xs, h => by
    simp only [stringifyVal, decodeJson, JSValue.arr.injEq]
    exact decodeList_stringifyList xs (by simpa [isPure] using h)
  | .obj fs, h => by
    simp only [stringifyVal, decodeJson, JSValue.obj.injEq]
    exact decodeFields_stringifyFields fs (by simpa [isPure] using h)
/-- Round trip on array elements. -/
theorem decodeList_stringifyList : ∀ xs : JSList, isPureList xs = true →
    decodeList (stringifyList xs) = xs
  | .nil, _ => rfl
  | .cons v tl, h => by
    have hv : isPure v = true := ((Bool.and_eq_true _ _).mp (by simpa [isPureList] using h)).1
    have htl : isPureList tl = true := ((Bool.and_eq_true _ _).mp (by simpa [isPureList] using h)).2
    simp only [stringifyList, decodeList, JSList.cons.injEq]
    exact ⟨decode_stringify v hv, decodeList_stringifyList tl htl⟩
/-- Round trip on object members: no member of a pure object is dropped. -/
theorem decodeFields_stringifyFields : ∀ fs : JSFields, isPureFields fs = true →
    decodeFields (stringifyFields fs) = fs
  | .nil, _ => rfl
  | .cons k v tl, h => by
    have hv : isPure v = true := ((Bool.and_eq_true _ _).mp (by simpa [isPureFields] using h)).1
    have htl : isPureFields tl = true := ((Bool.and_eq_true _ _).mp (by simpa [isPureFields] using h)).2
    have hdrop : stringifyFields (.cons k v tl) = .cons k (stringifyVal v) (stringifyFields tl) := by
      cases v <;> first
        | rfl
        | (exact absurd hv (by simp [isPure]))
    rw [hdrop]
    simp only [decodeFields, JSFields.cons.injEq]
    exact ⟨trivial, decode_stringify v hv, decodeFields_stringifyFields tl htl⟩
end

/-- Purely JSON-encodable values are untouched by the normalization step. -/
theorem safeValue_of_isPure (v : JSValue) (h : isPure v = true) : safeValue v = v := by
  cases v <;> first
    | rfl
    | (exact absurd h (by simp [isPure]))

/-- Reading back the key just written finds the written value. -/
theorem lookupEntry_setEntry_self (st : DriverState) (key : Str) (v : StoredVal) :
    lookupEntry (setEntry st key v) key = some v := by
  induction st with
  | nil => simp [setEntry, lookupEntry]
  | cons e rest ih =>
    by_cases h : e.1 = key
    · simp [setEntry, h, lookupEntry]
    · simp [setEntry, h, lookupEntry, ih]

/-- Driver delete is a filter on the entry list. -/
theorem removeEntry_eq_filter (st : DriverState) (key : Str) :
    removeEntry st key = st.filter (fun e => !(decide (e.1 = key))) := by
  induction st with
  | nil => rfl
  | cons e rest ih =>
    by_cases h : e.1 = key
    · simp [removeEntry, h, ih]
    · simp [removeEntry, h, ih]

/-- An enumerated key has an entry to read. -/
theorem lookupEntry_isSome_of_mem (st : DriverState) (key : Str)
    (h : key ∈ st.map Prod.fst) : ∃ v, lookupEntry st key = some v := by
  induction st with
  | nil => simp at h
  | cons e rest ih =>
    by_cases he : e.1 = key
    · exact ⟨e.2, by simp [lookupEntry, he]⟩
    · have hmem : key ∈ rest.map Prod.fst := by
        simp only [List.map_cons, List.mem_cons] at h
        rcases h with h' | h'
        · exact absurd h'.symm he
        · exact h'
      rcases ih hmem with ⟨v, hv⟩
      exact ⟨v, by simp [lookupEntry, he, hv]⟩

/-- A successful driver read comes from an entry of the store. -/
theorem mem_of_lookupEntry_eq_some (st : DriverState) (key : Str) (v : StoredVal)
    (h : lookupEntry st key = some v) : (key, v) ∈ st := by
  induction st with
  | nil => simp [lookupEntry] at h
  | cons e rest ih =>
    by_cases he : e.1 = key
    · simp only [lookupEntry, he, if_pos] at h
      have hev : e = (key, v) := by
        cases e
        simp only at he
        simp_all
      rw [hev]
      exact List.mem_cons_self _ _
    · simp only [lookupEntry, he, if_neg, not_false_iff] at h
      exact List.mem_cons_of_mem _ (ih h)

/-- Gluing the prefix back onto the stripped remainder restores the key. -/
theorem append_drop_of_prefix {pfx s : Str} (h : pfx <+: s) :
    pfx ++ s.drop pfx.length = s := by
  obtain ⟨t, rfl⟩ := h
  rw [List.drop_left]

/-- Stripping a prefix that was just attached gives back the bare key. -/
theorem removePrefix_append (pfx k : Str) : removePrefix (pfx ++ k) pfx = k := by
  simp [removePrefix, List.prefix_append, List.drop_left]

/-- Projection of the live store's read. -/
@[simp] theorem liveStorage_getItem (key : Str) (st : DriverState) :
    liveStorage.getItem key st = (.ok (lookupEntry st key), st) := rfl

/-- Projection of the live store's write. -/
@[simp] theorem liveStorage_setItem (key : Str) (v : StoredVal) (st : DriverState) :
    liveStorage.setItem key v st = (.ok (), setEntry st key v) := rfl

/-- Projection of the live store's delete. -/
@[simp] theorem liveStorage_removeItem (key : Str) (st : DriverState) :
    liveStorage.removeItem key st = (.ok (), removeEntry st key) := rfl

/-- Projection of the live store's key enumeration. -/
@[simp] theorem liveStorage_objectKeys (st : DriverState) :
    liveStorage.objectKeys st = (st.map Prod.fst, st) := rfl

/-- Running the key-collecting loop over the live store touches no state and
collects the stripped form of exactly the prefixed keys, in order. -/
theorem iterGo_keys (pfx : Str) (l : List Str) (st : DriverState) (acc : List Str) :
    iterGo liveStorage pfx (keysCb pfx) l st acc
      = (st, acc ++ (l.filter (fun k => decide (pfx <+: k))).map
          (fun k => removePrefix k pfx), none) := by
  induction l generalizing acc with
  | nil => simp [iterGo]
  | cons key rest ih =>
    by_cases h : pfx <+: key
    · simp [iterGo, h, keysCb, ih, List.filter_cons]
    · simp [iterGo, h, keysCb, ih, List.filter_cons]

/-- Characterization of `keys` on the live store: it never fails, leaves the
state alone and returns the stripped prefixed keys in enumeration order. -/
theorem keysOp_live (pfx : Str) (st : DriverState) :
    keysOp liveStorage pfx st
      = ((((st.map Prod.fst).filter (fun k => decide (pfx <+: k))).map
          (fun k => removePrefix k pfx), none), st) := by
  simp [keysOp, iterateStorageOp, iterGo_keys]

/-- Running the deletion loop of `clear` over the live store removes exactly
the listed keys that carry the prefix. -/
theorem iterGo_clear (pfx : Str) (l : List Str) (st : DriverState) :
    iterGo liveStorage pfx (clearCb liveStorage) l st ()
      = (st.filter (fun e => !(decide (e.1 ∈ l) && decide (pfx <+: e.1))), (), none) := by
  induction l generalizing st with
  | nil => simp [iterGo]
  | cons key rest ih =>
    by_cases h : pfx <+: key
    · have step : iterGo liveStorage pfx (clearCb liveStorage) (key :: rest) st ()
          = iterGo liveStorage pfx (clearCb liveStorage) rest (removeEntry st key) () := by
        simp [iterGo, h, clearCb]
      rw [step, ih, removeEntry_eq_filter, List.filter_filter]
      congr 1
      refine List.filter_congr ?_
      intro e _
      by_cases hek : e.1 = key
      · simp [hek, h]
      · simp [hek, List.mem_cons]
    · have step : iterGo liveStorage pfx (clearCb liveStorage) (key :: rest) st ()
          = iterGo liveStorage pfx (clearCb liveStorage) rest st () := by
        simp [iterGo, h]
      rw [step, ih]
      congr 1
      refine List.filter_congr ?_
      intro e _
      by_cases hek : e.1 = key
      · simp [hek, h, List.mem_cons]
      · simp [hek, List.mem_cons]

/-- Characterization of `clear` on the live store: it reports success and
removes exactly the entries whose key carries the prefix. -/
theorem clearOp_live (pfx : Str) (st : DriverState) :
    clearOp liveStorage pfx st
      = ((true, none), st.filter (fun e => !(decide (pfx <+: e.1)))) := by
  have h := iterGo_clear pfx (st.map Prod.fst) st
  have hmem : st.filter
      (fun e => !(decide (e.1 ∈ st.map Prod.fst)) || !(decide (pfx <+: e.1)))
      = st.filter (fun e => !(decide (pfx <+: e.1))) := by
    refine List.filter_congr ?_
    intro e he
    simp [List.mem_map_of_mem Prod.fst he]
  simp [clearOp, iterateStorageOp, h, hmem]

/-- Computation of `setItem` on the live store: it succeeds and stores the
encoding of the normalized value under the prefixed key. -/
theorem setItemOp_live (pfx k : Str) (v : JSValue) (st : DriverState) :
    setItemOp liveStorage pfx k v st
      = ((true, none), setEntry st (pfx ++ k) (.json (stringifyVal (safeValue v)))) := rfl

/-- Computation of `getItem` on the live store when the prefixed key holds a
well-formed JSON text: the decoded value comes back with a clean error slot. -/
theorem getItemOp_live_json (pfx k : Str) (j : Json) (st : DriverState)
    (h : lookupEntry st (pfx ++ k) = some (.json j)) :
    getItemOp liveStorage pfx k st = ((decodeJson j, none), st) := by
  simp [getItemOp, h, parseStored]

/-- The loop preserves the store state whenever the read primitive and the
callback do. -/
theorem iterGo_preserves {σ α : Type} (S : Storage σ) (pfx : Str)
    (cb : Str → Option StoredVal → σ → α → Except Exc Unit × σ × α)
    (hg : ∀ k s, (S.getItem k s).2 = s)
    (hcb : ∀ k raw s a, (cb k raw s a).2.1 = s) :
    ∀ (l : List Str) (st : σ) (acc : α), (iterGo S pfx cb l st acc).1 = st := by
  intro l
  induction l with
  | nil => intro st acc; simp [iterGo]
  | cons key rest ih =>
    intro st acc
    by_cases h : pfx <+: key
    · have hg' := hg key st
      rcases hEq : S.getItem key st with ⟨r, st'⟩
      rw [hEq] at hg'
      have hg2 : st' = st := hg'
      cases r with
      | error e => simp [iterGo, h, hEq, hg2]
      | ok raw =>
        have hcb' := hcb key raw st' acc
        rcases hcbEq : cb key raw st' acc with ⟨o, st2, acc2⟩
        rw [hcbEq] at hcb'
        have hcb2 : st2 = st' := hcb'
        cases o with
        | error e =>
          simp only [iterGo, h, if_pos, hEq, hcbEq]
          exact hcb2.trans hg2
        | ok u =>
          simp only [iterGo, h, if_pos, hEq, hcbEq]
          rw [ih st2 acc2, hcb2, hg2]
    · simp [iterGo, h, ih st acc]

/-- Facade `keys` preserves the store state whenever the read and enumerate
primitives do. -/
theorem keysOp_preserves {σ : Type} (S : Storage σ) (pfx : Str) (st : σ)
    (hg : ∀ k s, (S.getItem k s).2 = s)
    (hk : ∀ s, (S.objectKeys s).2 = s) :
    (keysOp S pfx st).2 = st := by
  rcases hEq : S.objectKeys st with ⟨ks, st1⟩
  have hks : st1 = st := by
    have := hk st
    rw [hEq] at this
    exact this
  rw [hks] at hEq
  rcases hEq2 : iterGo S pfx (keysCb pfx) ks st [] with ⟨st', acc, exc⟩
  have hst' : st' = st := by
    have := iterGo_preserves S pfx (keysCb pfx) hg (fun k raw s a => rfl) ks st []
    rw [hEq2] at this
    exact this
  cases exc <;> simp [keysOp, iterateStorageOp, hEq, hEq2, hst']

/-- A store whose entries all hold well-formed JSON never produces a
malformed read. -/
theorem no_malformed_lookup (st : DriverState)
    (H : ∀ e ∈ st, isJsonVal e.2 = true) (k s : Str) :
    lookupEntry st k ≠ some (.malformed s) := by
  intro h
  have hm := mem_of_lookupEntry_eq_some st k _ h
  have := H _ hm
  simp [isJsonVal] at this

/-- The iterate loop with a never-throwing callback over a store with no
malformed reads completes cleanly without touching the state. -/
theorem iterGo_iter_ok {α : Type} (pfx : Str) (st : DriverState)
    (f : JSValue → Str → α → α) :
    ∀ (l : List Str) (acc : α),
      (∀ k ∈ l, ∀ s, lookupEntry st k ≠ some (.malformed s)) →
      ∃ acc', iterGo liveStorage pfx (iterCb pfx (fun v k a => .ok (f v k a))) l st acc
        = (st, acc', none) := by
  intro l
  induction l with
  | nil => exact fun acc _ => ⟨acc, by simp [iterGo]⟩
  | cons key rest ih =>
    intro acc hml
    have hrest : ∀ k ∈ rest, ∀ s, lookupEntry st k ≠ some (.malformed s) :=
      fun k hk => hml k (List.mem_cons_of_mem _ hk)
    by_cases h : pfx <+: key
    · cases hlk : lookupEntry st key with
      | none =>
        rcases ih (f .null (removePrefix key pfx) acc) hrest with ⟨acc', hacc⟩
        exact ⟨acc', by simp [iterGo, h, hlk, iterCb, parseRaw, hacc]⟩
      | some sv =>
        cases sv with
        | json j =>
          rcases ih (f (decodeJson j) (removePrefix key pfx) acc) hrest with ⟨acc', hacc⟩
          exact ⟨acc', by simp [iterGo, h, hlk, iterCb, parseRaw, parseStored, hacc]⟩
        | malformed s => exact absurd hlk (hml key (List.mem_cons_self _ _) s)
    · rcases ih acc hrest with ⟨acc', hacc⟩
      exact ⟨acc', by simp [iterGo, h, hacc]⟩

/-- The iterate loop with the counting-throwing callback stops at the `m`-th
member, reporting the thrown value and having made `m - 1` successful
invocations, the state untouched. -/
theorem iterGo_iter_count (pfx : Str) (st : DriverState) (e : Exc) (m : Nat) :
    ∀ (l : List Str) (n : Nat),
      (∀ k ∈ l, ∀ s, lookupEntry st k ≠ some (.malformed s)) →
      n < m → m ≤ n + l.countP (fun k => decide (pfx <+: k)) →
      iterGo liveStorage pfx (iterCb pfx (cbCount e m)) l st n
        = (st, m - 1, some e) := by
  intro l
  induction l with
  | nil =>
    intro n _ h1 h2
    simp [List.countP_nil] at h2
    omega
  | cons key rest ih =>
    intro n hml h1 h2
    have hrest : ∀ k ∈ rest, ∀ s, lookupEntry st k ≠ some (.malformed s) :=
      fun k hk => hml k (List.mem_cons_of_mem _ hk)
    by_cases h : pfx <+: key
    · have hcnt : (key :: rest).countP (fun k => decide (pfx <+: k))
          = rest.countP (fun k => decide (pfx <+: k)) + 1 := by
        simp [List.countP_cons, h]
      by_cases hm : n + 1 = m
      · have hn : n = m - 1 := by omega
        cases hlk : lookupEntry st key with
        | none =>
          subst hn
          simp [iterGo, h, hlk, iterCb, parseRaw, cbCount, hm]
        | some sv =>
          cases sv with
          | json j =>
            subst hn
            simp [iterGo, h, hlk, iterCb, parseRaw, parseStored, cbCount, hm]
          | malformed s => exact absurd hlk (hml key (List.mem_cons_self _ _) s)
      · have h1' : n + 1 < m := by omega
        have h2' : m ≤ (n + 1) + rest.countP (fun k => decide (pfx <+: k)) := by
          rw [hcnt] at h2
          omega
        cases hlk : lookupEntry st key with
        | none =>
          rw [show iterGo liveStorage pfx (iterCb pfx (cbCount e m)) (key :: rest) st n
              = iterGo liveStorage pfx (iterCb pfx (cbCount e m)) rest st (n + 1) from by
            simp [iterGo, h, hlk, iterCb, parseRaw, cbCount, hm]]
          exact ih (n + 1) hrest h1' h2'
        | some sv =>
          cases sv with
          | json j =>
            rw [show iterGo liveStorage pfx (iterCb pfx (cbCount e m)) (key :: rest) st n
                = iterGo liveStorage pfx (iterCb pfx (cbCount e m)) rest st (n + 1) from by
              simp [iterGo, h, hlk, iterCb, parseRaw, parseStored, cbCount, hm]]
            exact ih (n + 1) hrest h1' h2'
          | malformed s => exact absurd hlk (hml key (List.mem_cons_self _ _) s)
    · have hcnt : (key :: rest).countP (fun k => decide (pfx <+: k))
          = rest.countP (fun k => decide (pfx <+: k)) := by
        simp [List.countP_cons, h]
      rw [show iterGo liveStorage pfx (iterCb pfx (cbCount e m)) (key :: rest) st n
          = iterGo liveStorage pfx (iterCb pfx (cbCount e m)) rest st n from by
        simp [iterGo, h]]
      exact ih n hrest h1 (by rw [hcnt] at h2; omega)

/-- Inversion of a successful construction: the merged driver identifier was
one of the two accepted strings, the merged key prefix was a string, and the
instance records the probe outcome and the trimmed prefix. -/
theorem construct_ok_cases (options : WebStorageOptions) (avail : Bool) (ws : WebStorage)
    (h : construct options avail = .ok ws) :
    (options.driver.getD (.str DEFAULT_DRIVER) = .str ("localStorage".toList)
      ∨ options.driver.getD (.str DEFAULT_DRIVER) = .str ("sessionStorage".toList))
    ∧ ∃ s, options.keyPrefix.getD (.str DEFAULT_KEY_PREFIX) = .str s
        ∧ ws = ⟨!avail, trimStr s⟩ := by
  by_cases hc : options.driver.getD (.str DEFAULT_DRIVER) ≠ .str ("localStorage".toList)
      ∧ options.driver.getD (.str DEFAULT_DRIVER) ≠ .str ("sessionStorage".toList)
  · unfold construct at h
    rw [if_pos hc] at h
    exact absurd h (by simp)
  · have hd : options.driver.getD (.str DEFAULT_DRIVER) = .str ("localStorage".toList)
        ∨ options.driver.getD (.str DEFAULT_DRIVER) = .str ("sessionStorage".toList) := by
      rcases not_and_or.mp hc with h1 | h1
      · exact Or.inl (not_not.mp h1)
      · exact Or.inr (not_not.mp h1)
    unfold construct at h
    rw [if_neg hc] at h
    rcases hp : options.keyPrefix.getD (.str DEFAULT_KEY_PREFIX)
        with _ | _ | b | n | s | _ | es | fs <;> rw [hp] at h
    case neg.str =>
      replace h : Except.ok (⟨!avail, trimStr s⟩ : WebStorage) = Except.ok ws := h
      exact ⟨hd, s, rfl, (Except.ok.inj h).symm⟩
    all_goals exact absurd h (by simp)

/-- Valid merged options make construction succeed with the trimmed prefix. -/
theorem construct_ok_of_valid (options : WebStorageOptions) (avail : Bool) (s : Str)
    (hd : options.driver.getD (.str DEFAULT_DRIVER) = .str ("localStorage".toList)
      ∨ options.driver.getD (.str DEFAULT_DRIVER) = .str ("sessionStorage".toList))
    (hp : options.keyPrefix.getD (.str DEFAULT_KEY_PREFIX) = .str s) :
    construct options avail = .ok ⟨!avail, trimStr s⟩ := by
  unfold construct
  rw [if_neg (by rintro ⟨h1, h2⟩; rcases hd with h | h; exacts [h1 h, h2 h]), hp]

/-- Claim C8: the constructor raises immediately exactly when the merged
driver identifier is neither accepted literal or the merged key prefix is
not a string; on success the stored prefix is the trimmed provided prefix,
and an all-whitespace prefix is accepted and stored as the empty string. -/
theorem construct_claim (options : WebStorageOptions) (avail : Bool) :
    ((∃ ws, construct options avail = .ok ws) ↔
      ((options.driver.getD (.str DEFAULT_DRIVER) = .str ("localStorage".toList)
          ∨ options.driver.getD (.str DEFAULT_DRIVER) = .str ("sessionStorage".toList))
        ∧ ∃ s, options.keyPrefix.getD (.str DEFAULT_KEY_PREFIX) = .str s))
  ∧ (∀ ws s, construct options avail = .ok ws →
      options.keyPrefix.getD (.str DEFAULT_KEY_PREFIX) = .str s →
      ws.keyPrefix = trimStr s)
  ∧ (∀ s, trimStr s = [] →
      construct ⟨some (.str DEFAULT_DRIVER), some (.str s)⟩ avail
        = .ok ⟨!avail, []⟩) := by
  refine ⟨⟨?_, ?_⟩, ?_, ?_⟩
  · rintro ⟨ws, hws⟩
    rcases construct_ok_cases options avail ws hws with ⟨hd, s, hp, _⟩
    exact ⟨hd, s, hp⟩
  · rintro ⟨hd, s, hp⟩
    exact ⟨_, construct_ok_of_valid options avail s hd hp⟩
  · intro ws s hws hp
    rcases construct_ok_cases options avail ws hws with ⟨_, s', hp', hws'⟩
    rw [hp] at hp'
    cases hp'
    rw [hws']
  · intro s hs
    have h := construct_ok_of_valid ⟨some (.str DEFAULT_DRIVER), some (.str s)⟩ avail s
      (Or.inl rfl) rfl
    rw [hs] at h
    exact h

/-- Witness for claim C8 at concrete options: a valid driver with a
whitespace-only prefix constructs successfully with the empty prefix, and a
prefix with surrounding blanks is stored trimmed. -/
theorem construct_claim_witness :
    construct ⟨some (.str DEFAULT_DRIVER), some (.str ("  ".toList))⟩ true
      = .ok ⟨false, []⟩
  ∧ (∃ ws, construct ⟨none, some (.str (" p/ ".toList))⟩ true = .ok ws)
  ∧ (∀ ws, construct ⟨none, some (.str (" p/ ".toList))⟩ true = .ok ws →
      ws.keyPrefix = "p/".toList) := by
  refine ⟨(construct_claim ⟨none, none⟩ true).2.2 ("  ".toList) (by decide), ?_, ?_⟩
  · exact ((construct_claim ⟨none, some (.str (" p/ ".toList))⟩ true).1).mpr
      ⟨Or.inl rfl, " p/ ".toList, rfl⟩
  · intro ws hws
    have h := (construct_claim ⟨none, some (.str (" p/ ".toList))⟩ true).2.1 ws
      (" p/ ".toList) hws rfl
    rw [h]
    decide

/-- Claim C1 counterexample: with a valid driver identifier whose
availability probe fails, construction succeeds silently bound to the no-op
fallback store; the first data operations report success with a clean error
slot — a write stores nothing (the state stays empty) and the following read
reports absence — so unavailability is never surfaced through the error
slot, contradicting the claim that construction fails loudly. -/
theorem noopFallback_counterexample :
    construct ⟨some (.str ("localStorage".toList)), some (.str ("p/".toList))⟩ false
      = .ok ⟨true, "p/".toList⟩
  ∧ WebStorage.setItem ⟨true, "p/".toList⟩ ("k".toList) (.bool true) []
      = ((true, none), [])
  ∧ WebStorage.getItem ⟨true, "p/".toList⟩ ("k".toList) [] = ((.null, none), []) := by
  refine ⟨by decide, rfl, rfl⟩

/-- Claim C1 as amended: when the availability probe fails, the constructor
silently binds the no-op fallback store; every write then reports success
while leaving the store untouched and every read reports absence with a
clean error slot, so unavailability is never surfaced through the error
slot of any data operation. -/
theorem noopFallback_amended (options : WebStorageOptions) (ws : WebStorage)
    (h : construct options false = .ok ws) :
    ws.useNoop = true
  ∧ (∀ (key : Str) (v : JSValue) (st : DriverState),
      WebStorage.setItem ws key v st = ((true, none), st))
  ∧ (∀ (key : Str) (st : DriverState),
      WebStorage.getItem ws key st = ((.null, none), st)) := by
  rcases construct_ok_cases options false ws h with ⟨_, s, _, hws⟩
  have hnoop : ws.useNoop = true := by rw [hws]; rfl
  refine ⟨hnoop, ?_, ?_⟩
  · intro key v st
    simp [WebStorage.setItem, storageOf, hnoop, setItemOp, noopStorage]
  · intro key st
    simp [WebStorage.getItem, storageOf, hnoop, getItemOp, noopStorage]

/-- Witness for the amended claim C1 at concrete options and state. -/
theorem noopFallback_amended_witness :
    ((⟨true, "p/".toList⟩ : WebStorage).useNoop = true)
  ∧ WebStorage.setItem ⟨true, "p/".toList⟩ ("k".toList) (.num (.finite 1))
      [("q".toList, .json .null)]
      = ((true, none), [("q".toList, .json .null)])
  ∧ WebStorage.getItem ⟨true, "p/".toList⟩ ("k".toList) [("q".toList, .json .null)]
      = ((.null, none), [("q".toList, .json .null)]) := by
  have hcon : construct ⟨some (.str ("localStorage".toList)), some (.str ("p/".toList))⟩ false
      = .ok ⟨true, "p/".toList⟩ := by decide
  rcases noopFallback_amended _ _ hcon with ⟨h1, h2, h3⟩
  exact ⟨h1, h2 _ _ _, h3 _ _⟩

/-- Claim C2: on the live store, `setItem` followed by `getItem` on the same
bare key succeeds and returns the written value with a clean error slot for
every purely JSON-encodable value; the only coercions are the documented
ones: `undefined` and function values read back as `null`, non-finite
numbers read back as `null` through the encoder, and negative zero reads
back as `0`. -/
theorem setGet_roundTrip (v : JSValue) (pfx k : Str) (st : DriverState) :
    (setItemOp liveStorage pfx k v st).1 = (true, none)
  ∧ (isPure v = true →
      getItemOp liveStorage pfx k (setItemOp liveStorage pfx k v st).2
        = ((v, none), (setItemOp liveStorage pfx k v st).2))
  ∧ (v = .undef ∨ v = .fn →
      getItemOp liveStorage pfx k (setItemOp liveStorage pfx k v st).2
        = ((.null, none), (setItemOp liveStorage pfx k v st).2))
  ∧ (v = .num .nan ∨ v = .num .inf ∨ v = .num .negInf →
      getItemOp liveStorage pfx k (setItemOp liveStorage pfx k v st).2
        = ((.null, none), (setItemOp liveStorage pfx k v st).2))
  ∧ (v = .num .negZero →
      getItemOp liveStorage pfx k (setItemOp liveStorage pfx k v st).2
        = ((.num (.finite 0), none), (setItemOp liveStorage pfx k v st).2)) := by
  have hkey : lookupEntry (setEntry st (pfx ++ k) (.json (stringifyVal (safeValue v))))
      (pfx ++ k) = some (.json (stringifyVal (safeValue v))) :=
    lookupEntry_setEntry_self _ _ _
  have hget : getItemOp liveStorage pfx k (setItemOp liveStorage pfx k v st).2
      = ((decodeJson (stringifyVal (safeValue v)), none),
         (setItemOp liveStorage pfx k v st).2) := by
    rw [setItemOp_live]
    exact getItemOp_live_json pfx k _ _ hkey
  refine ⟨rfl, ?_, ?_, ?_, ?_⟩
  · intro hp
    rw [hget, safeValue_of_isPure v hp, decode_stringify v hp]
  · rintro (rfl | rfl) <;> simpa [safeValue, stringifyVal, decodeJson] using hget
  · rintro (rfl | rfl | rfl) <;> simpa [safeValue, stringifyVal, decodeJson] using hget
  · rintro rfl
    simpa [safeValue, stringifyVal, decodeJson] using hget

/-- Witness for claim C2 at concrete values: a pure boolean round-trips
unchanged, `undefined` reads back as `null`, and negative zero reads back
as `0`. -/
theorem setGet_roundTrip_witness :
    getItemOp liveStorage ("p/".toList) ("k".toList)
        (setItemOp liveStorage ("p/".toList) ("k".toList) (.bool true) []).2
      = ((.bool true, none),
         (setItemOp liveStorage ("p/".toList) ("k".toList) (.bool true) []).2)
  ∧ getItemOp liveStorage ("p/".toList) ("k".toList)
        (setItemOp liveStorage ("p/".toList) ("k".toList) .undef []).2
      = ((.null, none),
         (setItemOp liveStorage ("p/".toList) ("k".toList) .undef []).2)
  ∧ getItemOp liveStorage ("p/".toList) ("k".toList)
        (setItemOp liveStorage ("p/".toList) ("k".toList) (.num .negZero) []).2
      = ((.num (.finite 0), none),
         (setItemOp liveStorage ("p/".toList) ("k".toList) (.num .negZero) []).2) :=
  ⟨(setGet_roundTrip (.bool true) _ _ []).2.1 (by decide),
   (setGet_roundTrip .undef _ _ []).2.2.1 (Or.inl rfl),
   (setGet_roundTrip (.num .negZero) _ _ []).2.2.2.2 rfl⟩

/-- Claim C4: when the prefixed form of a key is absent from the driver,
`getItem` returns the success tuple `(null, null)`, never a failure tuple. -/
theorem getItem_absent (pfx key : Str) (st : DriverState)
    (h : lookupEntry st (pfx ++ key) = none) :
    getItemOp liveStorage pfx key st = ((.null, none), st) := by
  simp [getItemOp, h]

/-- Witness for claim C4 on a store that has an entry under a different
key. -/
theorem getItem_absent_witness :
    lookupEntry [("q".toList, .json .null)] ("p/".toList ++ "k".toList) = none
  ∧ getItemOp liveStorage ("p/".toList) ("k".toList) [("q".toList, .json .null)]
      = ((.null, none), [("q".toList, .json .null)]) :=
  ⟨by decide, getItem_absent ("p/".toList) ("k".toList) _ (by decide)⟩

/-- Claim C5: `setItem` normalizes `null`, `undefined` and function values
to `null` before encoding, leaves every number (including the non-finite
ones) to the encoder — which itself coerces the non-finite numbers to the
null literal — and therefore stores the JSON null literal for `undefined`
and for function values. -/
theorem setItem_normalizes :
    (safeValue .undef = .null ∧ safeValue .null = .null ∧ safeValue .fn = .null)
  ∧ (∀ n : JSNum, safeValue (.num n) = .num n)
  ∧ (stringifyVal (.num .nan) = .null ∧ stringifyVal (.num .inf) = .null
      ∧ stringifyVal (.num .negInf) = .null)
  ∧ (∀ (pfx k : Str) (st : DriverState),
      setItemOp liveStorage pfx k .undef st
        = ((true, none), setEntry st (pfx ++ k) (.json .null))
      ∧ setItemOp liveStorage pfx k .fn st
        = ((true, none), setEntry st (pfx ++ k) (.json .null))) :=
  ⟨⟨rfl, rfl, rfl⟩, fun _ => rfl, ⟨rfl, rfl, rfl⟩, fun _ _ _ => ⟨rfl, rfl⟩⟩

/-- Claim C3: `clear` on the live store succeeds and deletes exactly the
entries whose key starts with the instance's prefix, leaving every other
entry unchanged; in particular an entry written under a different,
non-overlapping prefix survives. -/
theorem clear_claim (pfx : Str) (st : DriverState) :
    clearOp liveStorage pfx st
      = ((true, none), st.filter (fun e => !(decide (pfx <+: e.1))))
  ∧ (∀ (p2 k : Str) (v : StoredVal), ¬ pfx <+: p2 → ¬ p2 <+: pfx →
      (p2 ++ k, v) ∈ st → (p2 ++ k, v) ∈ (clearOp liveStorage pfx st).2) := by
  refine ⟨clearOp_live pfx st, ?_⟩
  intro p2 k v h1 h2 hmem
  rw [clearOp_live]
  have hnp : ¬ pfx <+: p2 ++ k := by
    intro hp
    rcases List.prefix_or_prefix_of_prefix hp (List.prefix_append p2 k) with hc | hc
    · exact h1 hc
    · exact h2 hc
  exact List.mem_filter.mpr ⟨hmem, by simp [hnp]⟩

/-- Witness for claim C3 on a concrete two-namespace store. -/
theorem clear_claim_witness :
    clearOp liveStorage ("a/".toList)
        [("a/x".toList, .json .null), ("b/y".toList, .json (.bool true))]
      = ((true, none), [("b/y".toList, .json (.bool true))])
  ∧ ("b/".toList ++ "y".toList, StoredVal.json (.bool true))
      ∈ (clearOp liveStorage ("a/".toList)
          [("a/x".toList, .json .null), ("b/y".toList, .json (.bool true))]).2 := by
  constructor
  · rw [(clear_claim ("a/".toList) _).1]
    decide
  · exact (clear_claim ("a/".toList) _).2 ("b/".toList) ("y".toList) _
      (by decide) (by decide) (by decide)

/-- Claim C6: `iterate` raises a TypeError immediately when the callback
argument is not callable; with a callable, never-throwing callback over a
store whose entries are well-formed it completes a full traversal and
returns `(true, null)`; and when the callback throws on its `m`-th
invocation the traversal stops there — exactly `m - 1` successful
invocations happened — and the thrown value is returned, wrapped, in the
error slot of a `(false, failure)` tuple instead of escaping. -/
theorem iterate_claim {α : Type} (pfx : Str) (st : DriverState) :
    (∀ (S : Storage DriverState) (acc : α),
        iterateOp S pfx (none : Option (JSValue → Str → α → Except Exc α)) st acc
          = .error (.typeError ("iteratorCallback must be a function".toList)))
  ∧ (∀ (f : JSValue → Str → α → α) (acc : α),
      (∀ e ∈ st, isJsonVal e.2 = true) →
      ∃ acc', iterateOp liveStorage pfx (some (fun v k a => .ok (f v k a))) st acc
        = .ok ((true, none), st, acc'))
  ∧ (∀ (e : Exc) (m : Nat),
      (∀ en ∈ st, isJsonVal en.2 = true) →
      0 < m → m ≤ (st.map Prod.fst).countP (fun k => decide (pfx <+: k)) →
      iterateOp liveStorage pfx (some (cbCount e m)) st 0
        = .ok ((false, some (wrapError e)), st, m - 1)) := by
  refine ⟨fun S acc => rfl, ?_, ?_⟩
  · intro f acc H
    have hml : ∀ k ∈ st.map Prod.fst, ∀ s, lookupEntry st k ≠ some (.malformed s) :=
      fun k _ s => no_malformed_lookup st H k s
    rcases iterGo_iter_ok pfx st f (st.map Prod.fst) acc hml with ⟨acc', hacc⟩
    exact ⟨acc', by simp [iterateOp, iterateStorageOp, hacc]⟩
  · intro e m H hm1 hm2
    have hml : ∀ k ∈ st.map Prod.fst, ∀ s, lookupEntry st k ≠ some (.malformed s) :=
      fun k _ s => no_malformed_lookup st H k s
    have h := iterGo_iter_count pfx st e m (st.map Prod.fst) 0 hml hm1 (by simpa using hm2)
    simp [iterateOp, iterateStorageOp, h]

/-- Witness for claim C6 on a one-member store: the TypeError on a
non-callable argument, a clean full traversal, and a callback throwing a
non-error value on its first invocation reported through the tuple. -/
theorem iterate_claim_witness :
    iterateOp liveStorage ("p/".toList)
        (none : Option (JSValue → Str → Nat → Except Exc Nat))
        [("p/a".toList, .json .null)] 0
      = .error (.typeError ("iteratorCallback must be a function".toList))
  ∧ (∃ acc', iterateOp liveStorage ("p/".toList)
        (some (fun v k a => .ok ((fun _ _ n => n + 1 : JSValue → Str → Nat → Nat) v k a)))
        [("p/a".toList, .json .null)] 0
      = .ok ((true, none), [("p/a".toList, .json .null)], acc'))
  ∧ iterateOp liveStorage ("p/".toList) (some (cbCount (.nonErr ("boom".toList)) 1))
        [("p/a".toList, .json .null)] 0
      = .ok ((false, some (.error ("boom".toList))), [("p/a".toList, .json .null)], 0) := by
  refine ⟨(@iterate_claim Nat ("p/".toList) _).1 liveStorage 0, ?_, ?_⟩
  · exact (@iterate_claim Nat ("p/".toList) _).2.1 (fun _ _ n => n + 1) 0 (by decide)
  · exact (@iterate_claim Nat ("p/".toList) _).2.2 (.nonErr ("boom".toList)) 1
      (by decide) (by decide) (by decide)

/-- Claim C7: `length` delegates to `keys`: a successful `keys` makes
`length` return the list's length with a clean error slot, and a failing
`keys` makes `length` return `(0, failure)` carrying the very same failure
object. -/
theorem length_claim {σ : Type} (S : Storage σ) (pfx : Str) (st : σ) :
    (∀ ks st', keysOp S pfx st = ((ks, none), st') →
      lengthOp S pfx st = ((ks.length, none), st'))
  ∧ (∀ ks e st', keysOp S pfx st = ((ks, some e), st') →
      lengthOp S pfx st = ((0, some e), st')) := by
  constructor
  · intro ks st' h
    simp [lengthOp, h]
  · intro ks e st' h
    simp [lengthOp, h]

/-- Witness for claim C7: the success case on the live store and the
failure case on the throwing test double, which propagates the same
error object. -/
theorem length_claim_witness :
    lengthOp liveStorage ("p/".toList) [("p/a".toList, .json .null)]
      = ((1, none), [("p/a".toList, .json .null)])
  ∧ lengthOp failStorage ("p/".toList) () = ((0, some (.error ("quota".toList))), ()) :=
  ⟨(length_claim liveStorage ("p/".toList) _).1 ["a".toList] _ (by decide),
   (length_claim failStorage ("p/".toList) ()).2 [] (.error ("quota".toList)) () (by decide)⟩

/-- Claim C9: whenever the bound store's read and enumeration primitives
leave its state unchanged, the facade operations `getItem`, `keys` and
`length` leave the store state unchanged as well — they compose only the
read and enumeration primitives, on the success paths and the failure paths
alike. -/
theorem readonly_claim {σ : Type} (S : Storage σ) (pfx key : Str) (st : σ)
    (hg : ∀ k s, (S.getItem k s).2 = s)
    (hk : ∀ s, (S.objectKeys s).2 = s) :
    (getItemOp S pfx key st).2 = st
  ∧ (keysOp S pfx st).2 = st
  ∧ (lengthOp S pfx st).2 = st := by
  have hkeys := keysOp_preserves S pfx st hg hk
  refine ⟨?_, hkeys, ?_⟩
  · have hg' := hg (pfx ++ key) st
    rcases hEq : S.getItem (pfx ++ key) st with ⟨r, st'⟩
    rw [hEq] at hg'
    have hg2 : st' = st := hg'
    cases r with
    | error e => simp [getItemOp, hEq, hg2]
    | ok raw =>
      cases raw with
      | none => simp [getItemOp, hEq, hg2]
      | some sv => cases hps : parseStored sv <;> simp [getItemOp, hEq, hg2, hps]
  · rcases hEq : keysOp S pfx st with ⟨⟨ks, err⟩, st'⟩
    rw [hEq] at hkeys
    have h2 : st' = st := hkeys
    cases err <;> simp [lengthOp, hEq, h2]

/-- Witness for claim C9 on the live store holding a malformed entry, so
that the read under the prefix takes the failure-tuple path yet the state is
preserved. -/
theorem readonly_claim_witness :
    (getItemOp liveStorage ("p/".toList) ("k".toList)
        [("p/k".toList, .malformed ("x".toList))]).2
      = [("p/k".toList, .malformed ("x".toList))]
  ∧ (keysOp liveStorage ("p/".toList) [("p/k".toList, .malformed ("x".toList))]).2
      = [("p/k".toList, .malformed ("x".toList))]
  ∧ (lengthOp liveStorage ("p/".toList) [("p/k".toList, .malformed ("x".toList))]).2
      = [("p/k".toList, .malformed ("x".toList))] :=
  readonly_claim liveStorage ("p/".toList) ("k".toList)
    [("p/k".toList, .malformed ("x".toList))] (fun _ _ => rfl) (fun _ => rfl)

/-- Claim C10: stripping a prefix that was just attached returns exactly the
bare key, and consequently every bare key returned by `keys` on the live
store re-prefixes to a full key holding an entry in the store at enumeration
time. -/
theorem keys_claim :
    (∀ pfx k : Str, removePrefix (pfx ++ k) pfx = k)
  ∧ (∀ (pfx : Str) (st : DriverState), ∀ bk ∈ (keysOp liveStorage pfx st).1.1,
      ∃ sv, lookupEntry st (pfx ++ bk) = some sv) := by
  refine ⟨removePrefix_append, ?_⟩
  intro pfx st bk hbk
  rw [keysOp_live] at hbk
  simp only [List.mem_map, List.mem_filter] at hbk
  rcases hbk with ⟨key0, ⟨hmem, hpfx⟩, rfl⟩
  have hp : pfx <+: key0 := by simpa using hpfx
  have hre : pfx ++ removePrefix key0 pfx = key0 := by
    rw [removePrefix, if_pos hp]
    exact append_drop_of_prefix hp
  rw [hre]
  refine lookupEntry_isSome_of_mem st key0 ?_
  rcases hmem with ⟨a, ha, hk⟩
  exact hk ▸ List.mem_map_of_mem Prod.fst ha

/-- Witness for claim C10 at a concrete prefix, key and store. -/
theorem keys_claim_witness :
    removePrefix ("p/".toList ++ "k".toList) ("p/".toList) = "k".toList
  ∧ ("a".toList ∈ (keysOp liveStorage ("p/".toList) [("p/a".toList, .json .null)]).1.1
      ∧ ∃ sv, lookupEntry [("p/a".toList, .json .null)] ("p/".toList ++ "a".toList)
          = some sv) :=
  ⟨keys_claim.1 ("p/".toList) ("k".toList),
   by decide,
   keys_claim.2 ("p/".toList) [("p/a".toList, .json .null)] ("a".toList) (by decide)⟩

end WebStorageModel
